import Mathlib

/-!
Verification development for the tntorch tensor-decomposition engine.

The repository material under `src/` is the tutorial notebook
`docs/tutorials/decompositions.ipynb`, which demonstrates the engine's API
(`tn.Tensor(...)` with `ranks_tt` / `ranks_tucker` / `ranks_cp` / `eps`,
`round_tt`, `round_tucker`, metrics) but does not contain the engine's code.
The engine itself is therefore modelled from the specification (`spec.md`):
every definition below whose doc comment starts with `Modelled from the spec:`
is a shallow embedding of a component the spec describes and the notebook
exercises, not a translation of visible code.

Dense linear-algebra primitives (SVD, QR) are out of scope per spec section 1:
they are black boxes with known guarantees.  Their numeric output is abstracted
by an `Oracle`; the ranks, shapes and dispatch decisions — everything the spec
actually pins down — are modelled concretely and executably over `ℚ`-valued
list tensors.  The error guarantees of the adapter are modelled as explicit
contracts over `ℝ` in the final section.
-/

namespace Tntorch

/-! ## List-based linear algebra over ℚ -/

/-- A matrix as a list of rows. -/
abbrev Mat := List (List ℚ)

/-- A 3-index array (TT core data): `rl` planes, each `n` rows of `rr` entries. -/
abbrev Cube := List (List (List ℚ))

/-- Dot product of two vectors (extra entries of the longer vector are ignored). -/
def dot (v w : List ℚ) : ℚ := (List.zipWith (· * ·) v w).sum

/-- Column `j` of a matrix. -/
def matCol (M : Mat) (j : ℕ) : List ℚ := M.map fun row => row.getD j 0

/-- Row-vector times matrix, with `rr` output columns. -/
def vecMat (v : List ℚ) (M : Mat) (rr : ℕ) : List ℚ :=
  (List.range rr).map fun j => dot v (matCol M j)

/-- The unit (indicator) vector of length `P` with a `1` in position `a`. -/
def unitVec (P a : ℕ) : List ℚ :=
  (List.range P).map fun b => if b = a then (1 : ℚ) else 0

/-! ## Data model

Modelled from the spec (section 3, "Structured Tensor"): one tagged data
structure for all formats, with cores shaped as a TT chain or as CP factor
matrices, and optional per-mode Tucker factors `Us`. -/

/-- A TT core: a 3-index array of declared dimensions `(rl, n, rr)`. -/
structure TTCore where
  rl : ℕ
  n : ℕ
  rr : ℕ
  data : Cube
deriving DecidableEq, Repr

/-- A CP core: a 2-index factor matrix of declared dimensions `(n, R)`. -/
structure CPCore where
  n : ℕ
  R : ℕ
  data : Mat
deriving DecidableEq, Repr

/-- Modelled from the spec: the `cores` field is either a TT chain of 3-index
cores or a list of 2-index CP factor matrices (section 3). -/
inductive CoreChain where
  | tt : List TTCore → CoreChain
  | cp : List CPCore → CoreChain
deriving DecidableEq, Repr

/-- Modelled from the spec: the Structured Tensor entity (section 3) — `shape`,
`cores` (as `chain`), and optional per-mode Tucker factors `Us`. -/
structure Tensor where
  shape : List ℕ
  chain : CoreChain
  Us : List (Option Mat)
deriving DecidableEq, Repr

/-- A full dense input array: a shape together with an entry function. -/
structure FullArray where
  shape : List ℕ
  entry : List ℕ → ℚ

/-- Number of modes of a Structured Tensor. -/
def Tensor.nModes (t : Tensor) : ℕ := t.shape.length

/-- Number of stored cores. -/
def Tensor.nCores (t : Tensor) : ℕ :=
  match t.chain with
  | .tt cs => cs.length
  | .cp cs => cs.length

/-- Whether the core chain is in CP form. -/
def Tensor.isCP (t : Tensor) : Bool :=
  match t.chain with
  | .tt _ => false
  | .cp _ => true

/-- Whether any Tucker factor is attached. -/
def Tensor.hasTuckerFactors (t : Tensor) : Bool := t.Us.any Option.isSome

/-- The four observable formats of the tutorial (TT, TT-Tucker, CP, CP-Tucker). -/
inductive Format where
  | TT | TTTucker | CP | CPTucker
deriving DecidableEq, Repr

/-- Modelled from the spec (section 9, format polymorphism): the format is read
off from which optional fields are populated. -/
def Tensor.format (t : Tensor) : Format :=
  match t.chain with
  | .tt _ => if t.Us.any Option.isSome then .TTTucker else .TT
  | .cp _ => if t.Us.any Option.isSome then .CPTucker else .CP

/-- Modelled from the spec: the derived `rank` query (section 3) — the boundary
dimensions of the TT chain, or the shared CP rank `R`. -/
def Tensor.rank (t : Tensor) : List ℕ :=
  match t.chain with
  | .tt [] => [1]
  | .tt (c :: cs) => c.rl :: (c :: cs).map (·.rr)
  | .cp cs => [(cs.head?.map (·.R)).getD 0]

/-- Size (number of stored coefficients) of a TT core. -/
def TTCore.size (c : TTCore) : ℕ := c.rl * c.n * c.rr

/-- Size of a CP core. -/
def CPCore.size (c : CPCore) : ℕ := c.n * c.R

/-- Modelled from the spec: the stored-coefficient count query (section 6). -/
def Tensor.numcoef (t : Tensor) : ℕ :=
  (match t.chain with
   | .tt cs => (cs.map TTCore.size).sum
   | .cp cs => (cs.map CPCore.size).sum) +
  (t.Us.map fun u =>
    match u with
    | some M => (M.map List.length).sum
    | none => 0).sum

/-- Slice of a TT core at modal index `i`: an `rl × rr` matrix. -/
def TTCore.slice (c : TTCore) (i : ℕ) : Mat := c.data.map fun plane => plane.getD i []

/-- Left-to-right contraction of a TT chain against a multi-index, carrying a
row vector of the current bond dimension. -/
def ttEvalAux : List ℚ → List TTCore → List ℕ → List ℚ
  | v, c :: cs, i :: is => ttEvalAux (vecMat v (c.slice i) c.rr) cs is
  | v, _, _ => v

/-- Evaluation of a CP chain at a multi-index: sum over the shared rank of the
products of per-mode factor entries. -/
def cpEval (cs : List CPCore) (idx : List ℕ) : ℚ :=
  let R := (cs.head?.map (·.R)).getD 0
  ((List.range R).map fun a =>
    ((cs.zip idx).map fun p => ((p.1.data.getD p.2 []).getD a 0)).prod).sum

/-- Modelled from the spec: reconstruction of a single entry of the represented
tensor (section 6, Query API). -/
def Tensor.eval (t : Tensor) (idx : List ℕ) : ℚ :=
  match t.chain with
  | .tt cs => (ttEvalAux [1] cs idx).sum
  | .cp cs => cpEval cs idx

/-- A multi-index is valid for a shape when it has one in-range entry per mode. -/
def validIdx (idx shape : List ℕ) : Bool :=
  idx.length = shape.length && (idx.zip shape).all fun p => p.1 < p.2

/-! ## The factorization adapter as an oracle

Modelled from the spec (section 1, out-of-scope collaborators; section 4.2):
truncated SVD is a black box.  Its numeric output (core data, factor data)
and its eps-mode rank choice are abstracted into an `Oracle`; the dimensions
handed to the oracle follow the adapter's contract. -/

/-- Modelled from the spec: the black-box numeric side of the Matrix
Factorization Adapter (section 4.2).  `cubeEntry rl n rr a i b` is the entry of
a produced TT core of dimensions `(rl, n, rr)`; `matEntry m n i j` the entry of
a produced factor matrix; `rankFor n e` the rank the eps-mode adapter selects
for a mode of size `n` at tolerance `e`. -/
structure Oracle where
  cubeEntry : ℕ → ℕ → ℕ → ℕ → ℕ → ℕ → ℚ
  matEntry : ℕ → ℕ → ℕ → ℕ → ℚ
  rankFor : ℕ → ℚ → ℕ

/-- Materialize an oracle-supplied core with exact dimensions `(rl, n, rr)`. -/
def mkCube (o : Oracle) (rl n rr : ℕ) : Cube :=
  (List.range rl).map fun a =>
    (List.range n).map fun i =>
      (List.range rr).map fun b => o.cubeEntry rl n rr a i b

/-- Materialize an oracle-supplied factor matrix with exact dimensions `(m, n)`. -/
def mkMat (o : Oracle) (m n : ℕ) : Mat :=
  (List.range m).map fun i => (List.range n).map fun j => o.matEntry m n i j

/-- A concrete oracle producing all-zero data (used to exercise the model on
closed inputs). -/
def trivialOracle : Oracle :=
  ⟨fun _ _ _ _ _ _ => 0, fun _ _ _ _ => 0, fun n _ => n⟩

/-! ## Rank bookkeeping for the decomposers

Modelled from the spec (sections 4.2-4.4): the adapter truncates to
`min(rank, matrix_rank)`, so the TT bond ranks of a full array are capped by
`min(prod of left mode sizes, prod of right mode sizes)` and the Tucker ranks
by the mode sizes. -/

/-- Maximal (exact) TT bond ranks of a shape: one entry per interior bond. -/
def fullBondRanks (shape : List ℕ) : List ℕ :=
  (List.range (shape.length - 1)).map fun k =>
    min ((shape.take (k + 1)).prod) ((shape.drop (k + 1)).prod)

/-- TT bond ranks when a fixed target rank `r` is requested. -/
def ttBondRanksFixed (shape : List ℕ) (r : ℕ) : List ℕ :=
  (fullBondRanks shape).map (min r)

/-- TT bond ranks when an error tolerance is requested: the eps-mode adapter
picks each bond rank (capped by the exact bond rank). -/
def ttBondRanksEps (o : Oracle) (shape : List ℕ) (e : ℚ) : List ℕ :=
  (fullBondRanks shape).map fun f => min f (o.rankFor f e)

/-- Tucker ranks when a fixed target rank `s` is requested: capped per mode. -/
def tuckerRanksFixed (shape : List ℕ) (s : ℕ) : List ℕ := shape.map (min s)

/-- Tucker ranks when an error tolerance is requested (per-mode adapter call). -/
def tuckerRanksEps (o : Oracle) (shape : List ℕ) (e : ℚ) : List ℕ :=
  shape.map fun n => min n (o.rankFor n e)

/-- Modelled from the spec: the per-mode Tucker factor matrices `(n_k, s_k)`
produced by the HOSVD stage (section 4.4), one `some` per mode. -/
def tuckerFactors (o : Oracle) (shape sks : List ℕ) : List (Option Mat) :=
  (shape.zip sks).map fun p => some (mkMat o p.1 p.2)

/-- Modelled from the spec: the TT-SVD sweep's chain of cores (section 4.3).
The left bond rank is carried left-to-right starting at `1`; the last core's
right rank is `1` by construction.  Core data comes from the adapter oracle. -/
def mkTTCoresAux (o : Oracle) : List ℕ → List ℕ → ℕ → List TTCore
  | [], _, _ => []
  | [n], _, rl => [⟨rl, n, 1, mkCube o rl n 1⟩]
  | n :: n₂ :: ns, bonds, rl =>
      let rr := bonds.headD 1
      ⟨rl, n, rr, mkCube o rl n rr⟩ :: mkTTCoresAux o (n₂ :: ns) bonds.tail rr

/-- TT chain over a shape with the given interior bond ranks. -/
def mkTTCores (o : Oracle) (shape bonds : List ℕ) : List TTCore :=
  mkTTCoresAux o shape bonds 1

/-- The 3-index delta array of dimensions `(P, n, P·n)`: entry `(a, i, b)` is
`1` exactly when `b = a·n + i`. -/
def deltaCube (P n : ℕ) : Cube :=
  (List.range P).map fun a =>
    (List.range n).map fun i =>
      (List.range (P * n)).map fun b => if b = a * n + i then (1 : ℚ) else 0

/-- Modelled from the spec: the exact (lossless) TT chain used when neither a
rank nor a tolerance is supplied (tutorial cells building `tn.Tensor(full)`
with no arguments; the engine code for this constructor path is not in
`src/`).  All but the last core are delta (reshaping) cores; the last core
stores the entries of the input.  `g a rest` is the input entry at the
multi-index whose first modes encode to `a` (row-major) followed by `rest`. -/
def exactChain : ℕ → (ℕ → List ℕ → ℚ) → List ℕ → List TTCore
  | _, _, [] => []
  | P, g, [n] =>
      [⟨P, n, 1, (List.range P).map fun a => (List.range n).map fun i => [g a [i]]⟩]
  | P, g, n :: n₂ :: ns =>
      ⟨P, n, P * n, deltaCube P n⟩ ::
        exactChain (P * n) (fun a rest => g (a / n) (a % n :: rest)) (n₂ :: ns)

/-- Error message of the CP-ALS decomposer when no rank is supplied. -/
def cpRankRequiredMsg : String :=
  "CP-ALS requires an explicit rank: ALS is a fixed-rank fitting procedure and admits no error-tolerance-only request"

/-- Error message when `ranks_cp` is combined with an error tolerance. -/
def epsWithCPMsg : String :=
  "ranks_cp cannot be combined with eps: CP admits no rank-adaptive truncation"

/-- Error message when `ranks_cp` is combined with `ranks_tt`. -/
def ttWithCPMsg : String :=
  "ranks_cp cannot be combined with ranks_tt"

/-- Modelled from the spec: the CP-ALS decomposer (section 4.5).  A rank must
always be supplied; with a rank it produces one 2-index factor matrix per mode
sharing the rank `R` (numerics via the oracle).  An error-tolerance-only
request fails fast with a descriptive condition (section 7a). -/
def cpALS (o : Oracle) (shape : List ℕ) (rank : Option ℕ) (eps : Option ℚ) :
    Except String (List CPCore) :=
  match rank with
  | none => .error cpRankRequiredMsg
  | some R =>
      if eps.isSome then .error epsWithCPMsg
      else .ok (shape.map fun n => ⟨n, R, mkMat o n R⟩)

/-- Modelled from the spec: the Error-Bounded Orchestrator (section 4.7) —
given only `eps`, run Tucker HOSVD with the per-mode budget, then TT-SVD on the
reduced core with the remaining budget, yielding a TT-Tucker tensor. -/
def orchestrate (o : Oracle) (A : FullArray) (e : ℚ) : Tensor :=
  let sks := tuckerRanksEps o A.shape e
  ⟨A.shape, .tt (mkTTCores o sks (ttBondRanksEps o sks e)),
    tuckerFactors o A.shape sks⟩

/-- Modelled from the spec: the Structured Tensor constructor (section 2
control flow; section 6 construction API; tutorial `tn.Tensor(...)`), which
dispatches to TT-SVD, Tucker, CP-ALS, a chained combination, the error-bounded
orchestrator, or the exact representation, depending on which rank/error
arguments are supplied. -/
def tnTensor (o : Oracle) (A : FullArray)
    (ranks_tt ranks_tucker ranks_cp : Option ℕ) (eps : Option ℚ) :
    Except String Tensor :=
  match ranks_cp with
  | some R =>
      if eps.isSome then .error epsWithCPMsg
      else if ranks_tt.isSome then .error ttWithCPMsg
      else
        match ranks_tucker with
        | some s =>
            let sks := tuckerRanksFixed A.shape s
            match cpALS o sks (some R) none with
            | .error msg => .error msg
            | .ok cs => .ok ⟨A.shape, .cp cs, tuckerFactors o A.shape sks⟩
        | none =>
            match cpALS o A.shape (some R) none with
            | .error msg => .error msg
            | .ok cs => .ok ⟨A.shape, .cp cs, A.shape.map fun _ => none⟩
  | none =>
      match ranks_tucker with
      | some s =>
          let sks := tuckerRanksFixed A.shape s
          let bonds :=
            match ranks_tt, eps with
            | some r, _ => ttBondRanksFixed sks r
            | none, some e => ttBondRanksEps o sks e
            | none, none => fullBondRanks sks
          .ok ⟨A.shape, .tt (mkTTCores o sks bonds), tuckerFactors o A.shape sks⟩
      | none =>
          match ranks_tt with
          | some r =>
              .ok ⟨A.shape, .tt (mkTTCores o A.shape (ttBondRanksFixed A.shape r)),
                A.shape.map fun _ => none⟩
          | none =>
              match eps with
              | some e => .ok (orchestrate o A e)
              | none =>
                  .ok ⟨A.shape,
                    .tt (exactChain 1 (fun _ idx => A.entry idx) A.shape),
                    A.shape.map fun _ => none⟩

/-! ## Rounding / recompression operators

Modelled from the spec (section 4.6).  `round_tt` re-truncates an existing TT
chain: interior bond ranks drop to `min(current, target)` while the boundary
ranks stay untouched; in exact arithmetic the orthogonalization sweep is a
rank-preserving gauge transformation, so the model keeps the cores and slices
them at the truncated bonds.  CP chains are first converted to TT (the
documented recovery behavior, tutorial cell 0). -/

/-- Truncate a core's data to `rl` planes of `rr` columns each. -/
def truncCube (c : Cube) (rl rr : ℕ) : Cube :=
  (c.take rl).map fun plane => plane.map fun row => row.take rr

/-- The truncation sweep of `round_tt` over a TT chain: the first core's left
rank and the last core's right rank are boundary ranks and stay untouched;
every interior bond is truncated to `min(current, r)`. -/
def roundTTAux (r : ℕ) : Bool → List TTCore → List TTCore
  | _, [] => []
  | first, [c] =>
      let rl := cond first c.rl (min c.rl r)
      [⟨rl, c.n, c.rr, truncCube c.data rl c.rr⟩]
  | first, c :: c₂ :: cs =>
      let rl := cond first c.rl (min c.rl r)
      let rr := min c.rr r
      ⟨rl, c.n, rr, truncCube c.data rl rr⟩ :: roundTTAux r false (c₂ :: cs)

/-- Truncation of a whole TT chain to target rank `r`. -/
def roundTTCores (cs : List TTCore) (r : ℕ) : List TTCore := roundTTAux r true cs

/-- Tail of the CP-to-TT conversion: interior CP factors become diagonal
`(R, n, R)` cores; the final factor becomes the `(R, n, 1)` closing core. -/
def cpTailToTT : List CPCore → List TTCore
  | [] => []
  | [c] =>
      [⟨c.R, c.n, 1,
        (List.range c.R).map fun a =>
          (List.range c.n).map fun i => [(c.data.getD i []).getD a 0]⟩]
  | c :: c₂ :: cs =>
      ⟨c.R, c.n, c.R,
        (List.range c.R).map fun a =>
          (List.range c.n).map fun i =>
            (List.range c.R).map fun b =>
              if b = a then (c.data.getD i []).getD a 0 else 0⟩ ::
        cpTailToTT (c₂ :: cs)

/-- Modelled from the spec: the pure CP-to-TT conversion (section 9, automatic
format migration on rounding) at the level of core chains.  The first factor
becomes the `(1, n, R)` opening core. -/
def cpToTTCores : List CPCore → List TTCore
  | [] => []
  | [c] =>
      [⟨1, c.n, 1, [(List.range c.n).map fun i => [(c.data.getD i []).sum]]⟩]
  | c :: c₂ :: cs =>
      ⟨1, c.n, c.R,
        [(List.range c.n).map fun i =>
          (List.range c.R).map fun a => (c.data.getD i []).getD a 0]⟩ ::
        cpTailToTT (c₂ :: cs)

/-- The CP cores of a tensor (empty for a TT-chain tensor). -/
def Tensor.cpCores (t : Tensor) : List CPCore :=
  match t.chain with
  | .tt _ => []
  | .cp cs => cs

/-- Modelled from the spec: the pure CP-to-TT format conversion on whole
tensors — a new tagged variant, not a mutation of the dynamic type. -/
def cpToTT (t : Tensor) : Tensor :=
  ⟨t.shape, .tt (cpToTTCores t.cpCores), t.Us⟩

/-- Modelled from the spec: `round_tt` (section 4.6; tutorial `t.round_tt`).
On a CP chain it first converts to TT (documented recovery behavior), then
performs the truncation sweep. -/
def round_tt (t : Tensor) (r : ℕ) : Tensor :=
  match t.chain with
  | .tt cs => ⟨t.shape, .tt (roundTTCores cs r), t.Us⟩
  | .cp cs => ⟨t.shape, .tt (roundTTCores (cpToTTCores cs) r), t.Us⟩

/-- Re-expression of the TT chain over new per-mode modal sizes `sks` (the
Tucker-reduced coordinates); bond ranks are untouched, data via the oracle. -/
def retuckAux (o : Oracle) : List TTCore → List ℕ → List TTCore
  | [], _ => []
  | c :: cs, sks =>
      let s := sks.headD c.n
      ⟨c.rl, s, c.rr, mkCube o c.rl s c.rr⟩ :: retuckAux o cs sks.tail

/-- Modelled from the spec: `round_tucker` (section 4.6; tutorial
`t.round_tucker`) — re-factorizes each mode's column space, attaching one
Tucker factor per mode (so a plain TT input becomes TT-Tucker) and rewriting
the chain over the reduced modal sizes.  A CP chain is first converted to TT. -/
def round_tucker (o : Oracle) (t : Tensor) (sks : List ℕ) : Tensor :=
  let cs :=
    match t.chain with
    | .tt cs => cs
    | .cp cs => cpToTTCores cs
  ⟨t.shape, .tt (retuckAux o cs sks), tuckerFactors o t.shape sks⟩

/-- `round_tucker` driven by an error tolerance: the per-mode Tucker ranks are
chosen by the eps-mode adapter. -/
def round_tucker_eps (o : Oracle) (t : Tensor) (e : ℚ) : Tensor :=
  round_tucker o t (tuckerRanksEps o t.shape e)

/-! ## Structural invariants (spec section 3) -/

/-- Boundary ranks of a TT chain are exactly 1 (trivially true of CP chains,
whose rank is the shared `R`). -/
def Tensor.boundaryOK (t : Tensor) : Bool :=
  match t.chain with
  | .tt cs =>
      ((cs.head?.map (·.rl)).getD 1 = 1) && ((cs.getLast?.map (·.rr)).getD 1 = 1)
  | .cp _ => true

/-- Modelled from the spec: invariants (a) and (c) of section 3 — the number of
cores equals the number of modes, and TT boundary ranks are exactly 1. -/
def Tensor.invariantOK (t : Tensor) : Bool :=
  (t.nCores = t.nModes) && t.boundaryOK

/-! ## Metrics (spec section 6, Metrics API)

Modelled from the spec: reconstruction-fidelity metrics are reductions over the
dense reconstruction.  To stay within exact `ℚ` arithmetic the squared
variants of relative error and RMSE are used (the square root is monotone, so
order facts transfer). -/

/-- All valid multi-indices of a shape, in row-major order. -/
def allIndices : List ℕ → List (List ℕ)
  | [] => [[]]
  | n :: ns => (List.range n).flatMap fun i => (allIndices ns).map (i :: ·)

/-- Total squared reconstruction error against a full array. -/
def sqErr (A : FullArray) (t : Tensor) : ℚ :=
  ((allIndices A.shape).map fun idx => (A.entry idx - t.eval idx) ^ 2).sum

/-- Squared Frobenius norm of a full array. -/
def sqNorm (A : FullArray) : ℚ :=
  ((allIndices A.shape).map fun idx => A.entry idx ^ 2).sum

/-- Squared relative error (`tn.relative_error` squared). -/
def relative_error_sq (A : FullArray) (t : Tensor) : ℚ := sqErr A t / sqNorm A

/-- Squared RMSE (`tn.rmse` squared). -/
def rmse_sq (A : FullArray) (t : Tensor) : ℚ := sqErr A t / A.shape.prod

/-- R-squared (`tn.r_squared`), via the mean of the full array. -/
def r_squared (A : FullArray) (t : Tensor) : ℚ :=
  let m := (((allIndices A.shape).map A.entry).sum) / A.shape.prod
  1 - sqErr A t /
    (((allIndices A.shape).map fun idx => (A.entry idx - m) ^ 2).sum)

/-! ## The API in state-passing form (spec section 3, lifecycle)

Modelled from the spec: the rounding operators mutate the receiving Structured
Tensor in place, read-only queries never do.  In-place mutation is embedded as
explicit state passing: every operation returns the (possibly updated) state of
the receiver together with its result value; a mutator's result value is `Unit`
(nothing but the updated receiver comes back), a query returns the receiver
unchanged alongside the queried value. -/

/-- `round_tt` as a state-passing operation on the receiver. -/
def roundTTOp (t : Tensor) (r : ℕ) : Tensor × Unit := (round_tt t r, ())

/-- `round_tucker` as a state-passing operation on the receiver. -/
def roundTuckerOp (o : Oracle) (t : Tensor) (sks : List ℕ) : Tensor × Unit :=
  (round_tucker o t sks, ())

/-- The `shape` query. -/
def shapeOp (t : Tensor) : Tensor × List ℕ := (t, t.shape)

/-- The `rank` query. -/
def rankOp (t : Tensor) : Tensor × List ℕ := (t, t.rank)

/-- The `numcoef` query. -/
def numcoefOp (t : Tensor) : Tensor × ℕ := (t, t.numcoef)

/-- Entry reconstruction as a query. -/
def evalOp (t : Tensor) (idx : List ℕ) : Tensor × ℚ := (t, t.eval idx)

/-- Relative error (squared) as a query. -/
def relativeErrorOp (A : FullArray) (t : Tensor) : Tensor × ℚ :=
  (t, relative_error_sq A t)

/-- RMSE (squared) as a query. -/
def rmseOp (A : FullArray) (t : Tensor) : Tensor × ℚ := (t, rmse_sq A t)

/-- R-squared as a query. -/
def rSquaredOp (A : FullArray) (t : Tensor) : Tensor × ℚ := (t, r_squared A t)

/-! ## The error-budget model (spec sections 4.3, 4.4, 4.7, 9)

Modelled from the spec: the adapter's eps mode guarantees each factorization
step a relative error at most its budget; errors are near-orthogonal across
sweep steps, so the combined relative error is the root of the sum of squares
of the per-step errors.  The global budget splitting is an explicit function:
each of the `N-1` TT steps receives `eps / sqrt(N-1)` (section 4.3), each of
the `N` Tucker modes `eps / sqrt N` (section 4.4), and the orchestrator's two
stages split a global `eps` evenly as `eps / sqrt 2` each (one consistent
documented rule, per the section 9 design note). -/

/-- Root-sum-square composition of per-stage relative errors. -/
noncomputable def composedError (ds : List ℝ) : ℝ :=
  Real.sqrt (ds.map fun d => d ^ 2).sum

/-- Per-mode budget of the Tucker HOSVD stage at global tolerance `eps`. -/
noncomputable def tuckerModeBudget (eps : ℝ) (N : ℕ) : ℝ := eps / Real.sqrt N

/-- Per-step budget of the TT-SVD sweep at global tolerance `eps`. -/
noncomputable def ttStepBudget (eps : ℝ) (N : ℕ) : ℝ :=
  eps / Real.sqrt ((N - 1 : ℕ) : ℝ)

/-- Per-stage budget of the two-stage error-bounded orchestrator. -/
noncomputable def orchestratorStageBudget (eps : ℝ) : ℝ := eps / Real.sqrt 2

/-- Modelled from the spec: the adapter contract for the eps-only orchestrator
run on an `N`-mode array — `N` Tucker-mode errors and `N-1` TT-step errors,
each within its per-stage budget (sections 4.2-4.4, 4.7). -/
def orchestratorContract (N : ℕ) (eps : ℝ) (tErrs sErrs : List ℝ) : Prop :=
  tErrs.length = N ∧ sErrs.length = N - 1 ∧
    (∀ d ∈ tErrs, |d| ≤ tuckerModeBudget (orchestratorStageBudget eps) N) ∧
    (∀ d ∈ sErrs, |d| ≤ ttStepBudget (orchestratorStageBudget eps) N)

/-- The relative error achieved by the eps-only orchestrator path: the
near-orthogonal composition of all per-stage adapter errors. -/
noncomputable def orchestratorRelError (tErrs sErrs : List ℝ) : ℝ :=
  composedError (tErrs ++ sErrs)

/-- Modelled from the spec: the adapter contract of an eps-driven
`round_tucker` on an `N`-mode tensor — one per-mode error, each within the
per-mode budget (section 4.4). -/
def roundTuckerContract (N : ℕ) (eps : ℝ) (errs : List ℝ) : Prop :=
  errs.length = N ∧ ∀ d ∈ errs, |d| ≤ tuckerModeBudget eps N

/-- The Structured Tensor produced by the CP-Tucker path of the constructor
(`ranks_cp` and `ranks_tucker` together): Tucker factors per mode, CP cores
over the reduced mode sizes, all sharing the CP rank `R`. -/
def cpTuckerBuild (o : Oracle) (A : FullArray) (R s : ℕ) : Tensor :=
  ⟨A.shape, .cp ((tuckerRanksFixed A.shape s).map fun n => ⟨n, R, mkMat o n R⟩),
    tuckerFactors o A.shape (tuckerRanksFixed A.shape s)⟩

/-- The exact (lossless) Structured Tensor the constructor produces when
neither a rank nor a tolerance is supplied. -/
def exactBuild (A : FullArray) : Tensor :=
  ⟨A.shape, .tt (exactChain 1 (fun _ idx => A.entry idx) A.shape),
    A.shape.map fun _ => none⟩

/-- A small concrete full array (2 × 3) used to exercise the model. -/
def demoA : FullArray :=
  ⟨[2, 3], fun idx => ((idx.getD 0 0 * 3 + idx.getD 1 0 : ℕ) : ℚ)⟩

/-- A small concrete TT tensor (the rank-2 TT build of `demoA`'s shape). -/
def demoTT : Tensor :=
  ⟨[2, 3], .tt (mkTTCores trivialOracle [2, 3] (ttBondRanksFixed [2, 3] 2)),
    [none, none]⟩

/-- A small concrete CP tensor (one mode of size 2, CP rank 1). -/
def demoCP : Tensor := ⟨[2], .cp [⟨2, 1, [[1], [2]]⟩], [none]⟩

/-! ## Structural lemmas -/

lemma getLast?_cons_of_ne_nil (c : TTCore) {l : List TTCore} (h : l ≠ []) :
    (c :: l).getLast? = l.getLast? := by
  cases l with
  | nil => exact absurd rfl h
  | cons b m => exact List.getLast?_cons_cons

lemma mkTTCoresAux_length (o : Oracle) :
    ∀ (shape bonds : List ℕ) (rl : ℕ),
      (mkTTCoresAux o shape bonds rl).length = shape.length
  | [], _, _ => rfl
  | [_], _, _ => rfl
  | n :: n₂ :: ns, bonds, rl => by
      simp [mkTTCoresAux, mkTTCoresAux_length o (n₂ :: ns) bonds.tail]

lemma mkTTCoresAux_ne_nil (o : Oracle) {shape : List ℕ} (bonds : List ℕ) (rl : ℕ)
    (h : shape ≠ []) : mkTTCoresAux o shape bonds rl ≠ [] := by
  intro hc
  have := mkTTCoresAux_length o shape bonds rl
  rw [hc] at this
  exact h (List.eq_nil_of_length_eq_zero this.symm)

lemma mkTTCoresAux_head_rl (o : Oracle) (n : ℕ) (ns bonds : List ℕ) (rl : ℕ) :
    (mkTTCoresAux o (n :: ns) bonds rl).head?.map (·.rl) = some rl := by
  cases ns <;> simp [mkTTCoresAux]

lemma mkTTCoresAux_getLast_rr (o : Oracle) :
    ∀ (shape bonds : List ℕ) (rl : ℕ), shape ≠ [] →
      (mkTTCoresAux o shape bonds rl).getLast?.map (·.rr) = some 1
  | [], _, _, h => absurd rfl h
  | [_], _, _, _ => rfl
  | n :: n₂ :: ns, bonds, rl, _ => by
      rw [mkTTCoresAux, getLast?_cons_of_ne_nil _
        (mkTTCoresAux_ne_nil o bonds.tail (bonds.headD 1) (by simp))]
      exact mkTTCoresAux_getLast_rr o (n₂ :: ns) bonds.tail (bonds.headD 1) (by simp)

lemma exactChain_length :
    ∀ (P : ℕ) (g : ℕ → List ℕ → ℚ) (ns : List ℕ),
      (exactChain P g ns).length = ns.length
  | _, _, [] => rfl
  | _, _, [_] => rfl
  | P, g, n :: n₂ :: ns => by
      simp [exactChain, exactChain_length (P * n) _ (n₂ :: ns)]

lemma exactChain_ne_nil {P : ℕ} {g : ℕ → List ℕ → ℚ} {ns : List ℕ}
    (h : ns ≠ []) : exactChain P g ns ≠ [] := by
  intro hc
  have := exactChain_length P g ns
  rw [hc] at this
  exact h (List.eq_nil_of_length_eq_zero this.symm)

lemma exactChain_head_rl (P : ℕ) (g : ℕ → List ℕ → ℚ) (n : ℕ) (ns : List ℕ) :
    (exactChain P g (n :: ns)).head?.map (·.rl) = some P := by
  cases ns <;> simp [exactChain]

lemma exactChain_getLast_rr :
    ∀ (P : ℕ) (g : ℕ → List ℕ → ℚ) (ns : List ℕ), ns ≠ [] →
      (exactChain P g ns).getLast?.map (·.rr) = some 1
  | _, _, [], h => absurd rfl h
  | _, _, [_], _ => rfl
  | P, g, n :: n₂ :: ns, _ => by
      rw [exactChain, getLast?_cons_of_ne_nil _ (exactChain_ne_nil (by simp))]
      exact exactChain_getLast_rr (P * n) _ (n₂ :: ns) (by simp)

lemma cpTailToTT_length : ∀ (cs : List CPCore), (cpTailToTT cs).length = cs.length
  | [] => rfl
  | [_] => rfl
  | _ :: c₂ :: cs => by simp [cpTailToTT, cpTailToTT_length (c₂ :: cs)]

lemma cpTailToTT_ne_nil {cs : List CPCore} (h : cs ≠ []) : cpTailToTT cs ≠ [] := by
  intro hc
  have := cpTailToTT_length cs
  rw [hc] at this
  exact h (List.eq_nil_of_length_eq_zero this.symm)

lemma cpTailToTT_getLast_rr :
    ∀ (cs : List CPCore), cs ≠ [] → (cpTailToTT cs).getLast?.map (·.rr) = some 1
  | [], h => absurd rfl h
  | [_], _ => rfl
  | _ :: c₂ :: cs, _ => by
      rw [cpTailToTT, getLast?_cons_of_ne_nil _ (cpTailToTT_ne_nil (by simp))]
      exact cpTailToTT_getLast_rr (c₂ :: cs) (by simp)

lemma cpToTTCores_length : ∀ (cs : List CPCore), (cpToTTCores cs).length = cs.length
  | [] => rfl
  | [_] => rfl
  | _ :: c₂ :: cs => by simp [cpToTTCores, cpTailToTT_length (c₂ :: cs)]

lemma cpToTTCores_head_rl (c : CPCore) (cs : List CPCore) :
    (cpToTTCores (c :: cs)).head?.map (·.rl) = some 1 := by
  cases cs <;> simp [cpToTTCores]

lemma cpToTTCores_getLast_rr :
    ∀ (cs : List CPCore), cs ≠ [] → (cpToTTCores cs).getLast?.map (·.rr) = some 1
  | [], h => absurd rfl h
  | [_], _ => rfl
  | _ :: c₂ :: cs, _ => by
      rw [cpToTTCores, getLast?_cons_of_ne_nil _ (cpTailToTT_ne_nil (by simp))]
      exact cpTailToTT_getLast_rr (c₂ :: cs) (by simp)

lemma roundTTAux_length (r : ℕ) :
    ∀ (first : Bool) (cs : List TTCore),
      (roundTTAux r first cs).length = cs.length
  | _, [] => rfl
  | _, [_] => rfl
  | first, _ :: c₂ :: cs => by
      simp [roundTTAux, roundTTAux_length r false (c₂ :: cs)]

lemma roundTTAux_ne_nil {r : ℕ} {first : Bool} {cs : List TTCore}
    (h : cs ≠ []) : roundTTAux r first cs ≠ [] := by
  intro hc
  have := roundTTAux_length r first cs
  rw [hc] at this
  exact h (List.eq_nil_of_length_eq_zero this.symm)

lemma roundTTAux_head_rl_first (r : ℕ) (c : TTCore) (cs : List TTCore) :
    (roundTTAux r true (c :: cs)).head?.map (·.rl) = some c.rl := by
  cases cs <;> simp [roundTTAux]

lemma roundTTAux_getLast_rr (r : ℕ) :
    ∀ (first : Bool) (cs : List TTCore), cs ≠ [] →
      (roundTTAux r first cs).getLast?.map (·.rr) = cs.getLast?.map (·.rr)
  | _, [], h => absurd rfl h
  | first, [c], _ => by simp [roundTTAux]
  | first, c :: c₂ :: cs, _ => by
      rw [roundTTAux, getLast?_cons_of_ne_nil _ (roundTTAux_ne_nil (by simp)),
        getLast?_cons_of_ne_nil _ (by simp)]
      exact roundTTAux_getLast_rr r false (c₂ :: cs) (by simp)

lemma retuckAux_length (o : Oracle) :
    ∀ (cs : List TTCore) (sks : List ℕ),
      (retuckAux o cs sks).length = cs.length
  | [], _ => rfl
  | _ :: cs, sks => by simp [retuckAux, retuckAux_length o cs sks.tail]

lemma retuckAux_ne_nil (o : Oracle) {cs : List TTCore} (sks : List ℕ)
    (h : cs ≠ []) : retuckAux o cs sks ≠ [] := by
  intro hc
  have := retuckAux_length o cs sks
  rw [hc] at this
  exact h (List.eq_nil_of_length_eq_zero this.symm)

lemma retuckAux_head_rl (o : Oracle) (c : TTCore) (cs : List TTCore) (sks : List ℕ) :
    (retuckAux o (c :: cs) sks).head?.map (·.rl) = some c.rl := by
  simp [retuckAux]

lemma retuckAux_getLast_rr (o : Oracle) :
    ∀ (cs : List TTCore) (sks : List ℕ), cs ≠ [] →
      (retuckAux o cs sks).getLast?.map (·.rr) = cs.getLast?.map (·.rr)
  | [], _, h => absurd rfl h
  | [c], sks, _ => by simp [retuckAux]
  | c :: c₂ :: cs, sks, _ => by
      rw [retuckAux, getLast?_cons_of_ne_nil _ (retuckAux_ne_nil o sks.tail (by simp)),
        getLast?_cons_of_ne_nil _ (by simp)]
      exact retuckAux_getLast_rr o (c₂ :: cs) sks.tail (by simp)

lemma getD_range_map {α : Type} (f : ℕ → α) (n i : ℕ) (d : α) (h : i < n) :
    ((List.range n).map f).getD i d = f i := by
  rw [List.getD_eq_getElem?_getD, List.getElem?_map, List.getElem?_range h]
  rfl

lemma length_fullBondRanks (shape : List ℕ) :
    (fullBondRanks shape).length = shape.length - 1 := by
  simp [fullBondRanks]

lemma length_ttBondRanksFixed (shape : List ℕ) (r : ℕ) :
    (ttBondRanksFixed shape r).length = shape.length - 1 := by
  simp [ttBondRanksFixed, length_fullBondRanks]

lemma ttBondRanksFixed_le (shape : List ℕ) (r : ℕ) :
    ∀ b ∈ ttBondRanksFixed shape r, b ≤ r := by
  intro b hb
  simp only [ttBondRanksFixed, List.mem_map] at hb
  obtain ⟨x, -, rfl⟩ := hb
  exact min_le_left r x

/-- Oracle-materialized data always fits its declared dimensions, so the
truncation of `round_tt` at those dimensions is the identity on it. -/
lemma truncCube_mkCube (o : Oracle) (rl n rr : ℕ) :
    truncCube (mkCube o rl n rr) rl rr = mkCube o rl n rr := by
  unfold truncCube mkCube
  rw [List.take_of_length_le (le_of_eq (by simp))]
  rw [List.map_map]
  apply List.map_congr_left
  intro a _
  simp only [Function.comp_apply, List.map_map]
  apply List.map_congr_left
  intro i _
  simp only [Function.comp_apply]
  exact List.take_of_length_le (le_of_eq (by simp))

/-- The truncation sweep of `round_tt` is the identity on a TT-SVD-built chain
whose interior bond ranks are all at most the target rank. -/
lemma roundTTAux_mkTTCoresAux (o : Oracle) (r : ℕ) :
    ∀ (shape bonds : List ℕ) (rl : ℕ) (first : Bool),
      bonds.length = shape.length - 1 → (∀ b ∈ bonds, b ≤ r) →
      (first = false → rl ≤ r) →
      roundTTAux r first (mkTTCoresAux o shape bonds rl) =
        mkTTCoresAux o shape bonds rl
  | [], _, _, _, _, _, _ => rfl
  | [n], bonds, rl, first, _, _, hrl => by
      cases first with
      | true => simp [mkTTCoresAux, roundTTAux, truncCube_mkCube]
      | false =>
          simp [mkTTCoresAux, roundTTAux, min_eq_left (hrl rfl), truncCube_mkCube]
  | n :: n₂ :: ns, bonds, rl, first, hlen, hb, hrl => by
      cases bonds with
      | nil => simp at hlen
      | cons b bonds' =>
          have hble : b ≤ r := hb b (by simp)
          have hrec := roundTTAux_mkTTCoresAux o r (n₂ :: ns) bonds' b false
            (by simpa using hlen) (fun x hx => hb x (by simp [hx]))
            (fun _ => hble)
          obtain ⟨d, ds, hds⟩ := List.exists_cons_of_ne_nil
            (@mkTTCoresAux_ne_nil o (n₂ :: ns) bonds' b (by simp))
          have hmk : mkTTCoresAux o (n :: n₂ :: ns) (b :: bonds') rl =
              ⟨rl, n, b, mkCube o rl n b⟩ :: mkTTCoresAux o (n₂ :: ns) bonds' b := by
            simp [mkTTCoresAux]
          rw [hmk]
          rw [hds, roundTTAux]
          rw [← hds, hrec]
          have hrl' : cond first rl (min rl r) = rl := by
            cases first with
            | true => rfl
            | false => simp [min_eq_left (hrl rfl)]
          simp [hrl', min_eq_left hble, truncCube_mkCube]

lemma length_tuckerRanksFixed (shape : List ℕ) (s : ℕ) :
    (tuckerRanksFixed shape s).length = shape.length := by
  simp [tuckerRanksFixed]

lemma length_tuckerRanksEps (o : Oracle) (shape : List ℕ) (e : ℚ) :
    (tuckerRanksEps o shape e).length = shape.length := by
  simp [tuckerRanksEps]

/-! ## Evaluation lemmas for the exact representation -/

lemma dot_zero_left : ∀ (v w : List ℚ), (∀ x ∈ v, x = 0) → dot v w = 0
  | [], _, _ => by simp [dot]
  | _ :: _, [], _ => by simp [dot]
  | x :: v, y :: w, h => by
      have hx := h x (by simp)
      have hrest := dot_zero_left v w fun z hz => h z (by simp [hz])
      simp [dot] at hrest ⊢
      simp [hx, hrest]

lemma dot_unitVec : ∀ (P a : ℕ) (w : List ℚ), a < P → w.length = P →
    dot (unitVec P a) w = w.getD a 0
  | 0, _, _, ha, _ => absurd ha (Nat.not_lt_zero _)
  | P + 1, a, w, ha, hw => by
      cases w with
      | nil => simp at hw
      | cons w0 w' =>
          have hw' : w'.length = P := by simpa using hw
          rw [unitVec, List.range_succ_eq_map, List.map_cons, List.map_map]
          cases a with
          | zero =>
              simp only [dot, List.zipWith_cons_cons, List.sum_cons,
                if_pos rfl, one_mul]
              have hz : dot ((List.range P).map ((fun b =>
                  if b = 0 then (1 : ℚ) else 0) ∘ (· + 1))) w' = 0 := by
                apply dot_zero_left
                intro x hx
                simp only [List.mem_map, Function.comp_apply] at hx
                obtain ⟨b, -, rfl⟩ := hx
                simp
              simp only [dot] at hz
              simp [dot, hz]
          | succ a' =>
              have ha' : a' < P := by omega
              have hfun : ((fun b => if b = a' + 1 then (1 : ℚ) else 0) ∘ (· + 1)) =
                  fun b => if b = a' then (1 : ℚ) else 0 := by
                funext b
                simp [Function.comp]
              rw [hfun]
              have hrec := dot_unitVec P a' w' ha' hw'
              rw [unitVec] at hrec
              simp only [dot, List.zipWith_cons_cons, List.sum_cons]
              simp only [dot] at hrec
              simp [hrec]

lemma slice_range_map (P n rr : ℕ) (h : ℕ → ℕ → List ℚ) (i : ℕ) (hi : i < n) :
    TTCore.slice ⟨P, n, rr, (List.range P).map fun a =>
      (List.range n).map fun j => h a j⟩ i =
      (List.range P).map fun a => h a i := by
  simp only [TTCore.slice, List.map_map]
  apply List.map_congr_left
  intro a _
  simp only [Function.comp_apply]
  exact getD_range_map _ n i [] hi

lemma vecMat_unit_rangeMap (P a rr : ℕ) (ha : a < P) (row : ℕ → List ℚ) :
    vecMat (unitVec P a) ((List.range P).map row) rr =
      (List.range rr).map fun j => (row a).getD j 0 := by
  unfold vecMat
  apply List.map_congr_left
  intro j _
  have hcol : matCol ((List.range P).map row) j =
      (List.range P).map fun a' => (row a').getD j 0 := by
    simp [matCol, List.map_map, Function.comp]
  rw [hcol, dot_unitVec P a _ ha (by simp), getD_range_map _ P a 0 ha]

lemma vecMat_unit_delta (P n a i : ℕ) (ha : a < P) (hi : i < n) :
    vecMat (unitVec P a)
      (TTCore.slice ⟨P, n, P * n, deltaCube P n⟩ i) (P * n) =
      unitVec (P * n) (a * n + i) := by
  rw [show deltaCube P n = (List.range P).map fun a' =>
      (List.range n).map fun j =>
        (List.range (P * n)).map fun b => if b = a' * n + j then (1 : ℚ) else 0
    from rfl]
  rw [slice_range_map P n (P * n) _ i hi,
    vecMat_unit_rangeMap P a (P * n) ha _, unitVec]
  apply List.map_congr_left
  intro j hj
  rw [getD_range_map _ _ j 0 (List.mem_range.mp hj)]

lemma validIdx_cons (i n : ℕ) (is ns : List ℕ) :
    validIdx (i :: is) (n :: ns) = (decide (i < n) && validIdx is ns) := by
  simp only [validIdx, List.length_cons, List.zip_cons_cons, List.all_cons]
  rw [show (decide (is.length + 1 = ns.length + 1)) = decide (is.length = ns.length)
    by simp]
  rw [Bool.and_left_comm]

/-- Evaluating the exact chain from the unit vector at position `a` recovers
the entry function at the decoded multi-index. -/
lemma exactChain_eval :
    ∀ (ns : List ℕ) (P a : ℕ) (g : ℕ → List ℕ → ℚ) (idx : List ℕ),
      a < P → validIdx idx ns = true → ns ≠ [] →
      ttEvalAux (unitVec P a) (exactChain P g ns) idx = [g a idx]
  | [], _, _, _, _, _, _, h => absurd rfl h
  | [n], P, a, g, idx, ha, hv, _ => by
      cases idx with
      | nil => simp [validIdx] at hv
      | cons i idx' =>
          cases idx' with
          | cons j idx'' => simp [validIdx] at hv
          | nil =>
              have hi : i < n := by
                rw [validIdx_cons] at hv
                simp at hv
                exact hv.1
              rw [exactChain, ttEvalAux]
              rw [slice_range_map P n 1 (fun a' j => [g a' [j]]) i hi,
                vecMat_unit_rangeMap P a 1 ha _]
              show ((List.range 1).map fun j => ([g a [i]]).getD j 0) = [g a [i]]
              rw [show List.range 1 = [0] from rfl]
              simp
  | n :: n₂ :: ns, P, a, g, idx, ha, hv, _ => by
      cases idx with
      | nil => simp [validIdx] at hv
      | cons i idx' =>
          rw [validIdx_cons] at hv
          simp only [Bool.and_eq_true, decide_eq_true_eq] at hv
          have hn : 0 < n := lt_of_le_of_lt (Nat.zero_le i) hv.1
          have ha' : a * n + i < P * n := by
            calc a * n + i < a * n + n := by omega
            _ = (a + 1) * n := by ring
            _ ≤ P * n := Nat.mul_le_mul_right n ha
          rw [exactChain, ttEvalAux, vecMat_unit_delta P n a i ha hv.1]
          rw [exactChain_eval (n₂ :: ns) (P * n) (a * n + i) _ idx' ha' hv.2
            (by simp)]
          have hdiv : (a * n + i) / n = a := by
            rw [Nat.mul_comm a n, Nat.mul_add_div hn, Nat.div_eq_of_lt hv.1,
              Nat.add_zero]
          have hmod : (a * n + i) % n = i := by
            rw [Nat.mul_comm a n, Nat.mul_add_mod, Nat.mod_eq_of_lt hv.1]
          rw [hdiv, hmod]

lemma unitVec_one : unitVec 1 0 = [1] := rfl

lemma any_isSome_map_none (shape : List ℕ) :
    (shape.map fun _ => (none : Option Mat)).any Option.isSome = false := by
  simp [List.any_map, Function.comp]

/-! ## Invariants of constructed tensors -/

lemma invariantOK_mkTT (o : Oracle) (us : List (Option Mat))
    (shape' bonds shape : List ℕ) (hlen : shape'.length = shape.length) :
    Tensor.invariantOK ⟨shape, .tt (mkTTCores o shape' bonds), us⟩ = true := by
  simp only [Tensor.invariantOK, Tensor.nCores, Tensor.nModes, Tensor.boundaryOK,
    mkTTCores, Bool.and_eq_true, decide_eq_true_eq]
  refine ⟨by rw [mkTTCoresAux_length]; exact hlen, ?_⟩
  cases shape' with
  | nil => simp [mkTTCoresAux]
  | cons n ns =>
      have h1 := mkTTCoresAux_head_rl o n ns bonds 1
      have h2 := mkTTCoresAux_getLast_rr o (n :: ns) bonds 1 (by simp)
      simp [h1, h2]

lemma invariantOK_cp (o : Oracle) (us : List (Option Mat))
    (shape' shape : List ℕ) (R : ℕ) (hlen : shape'.length = shape.length) :
    Tensor.invariantOK
      ⟨shape, .cp (shape'.map fun n => ⟨n, R, mkMat o n R⟩), us⟩ = true := by
  simp [Tensor.invariantOK, Tensor.nCores, Tensor.nModes, Tensor.boundaryOK, hlen]

lemma invariantOK_exact (g : ℕ → List ℕ → ℚ) (us : List (Option Mat))
    (shape : List ℕ) :
    Tensor.invariantOK ⟨shape, .tt (exactChain 1 g shape), us⟩ = true := by
  simp only [Tensor.invariantOK, Tensor.nCores, Tensor.nModes, Tensor.boundaryOK,
    Bool.and_eq_true, decide_eq_true_eq]
  refine ⟨exactChain_length 1 g shape, ?_⟩
  cases shape with
  | nil => simp [exactChain]
  | cons n ns =>
      have h1 := exactChain_head_rl 1 g n ns
      have h2 := exactChain_getLast_rr 1 g (n :: ns) (by simp)
      simp [h1, h2]

/-- Every successful construction satisfies the structural invariants. -/
lemma tnTensor_invariantOK (o : Oracle) (A : FullArray)
    (rtt rtu rcp : Option ℕ) (eps : Option ℚ) (t : Tensor)
    (h : tnTensor o A rtt rtu rcp eps = .ok t) : t.invariantOK = true := by
  unfold tnTensor at h
  cases rcp with
  | some R =>
      cases eps with
      | some e => simp at h
      | none =>
          cases rtt with
          | some r => simp at h
          | none =>
              cases rtu with
              | some s =>
                  simp only [Option.isSome_none, Bool.false_eq_true, if_false,
                    cpALS, Except.ok.injEq] at h
                  subst h
                  exact invariantOK_cp o _ _ _ R (length_tuckerRanksFixed A.shape s)
              | none =>
                  simp only [Option.isSome_none, Bool.false_eq_true, if_false,
                    cpALS, Except.ok.injEq] at h
                  subst h
                  exact invariantOK_cp o _ _ _ R rfl
  | none =>
      cases rtu with
      | some s =>
          simp only [Except.ok.injEq] at h
          subst h
          exact invariantOK_mkTT o _ _ _ _ (length_tuckerRanksFixed A.shape s)
      | none =>
          cases rtt with
          | some r =>
              simp only [Except.ok.injEq] at h
              subst h
              exact invariantOK_mkTT o _ _ _ _ rfl
          | none =>
              cases eps with
              | some e =>
                  simp only [Except.ok.injEq] at h
                  subst h
                  exact invariantOK_mkTT o _ _ _ _ (length_tuckerRanksEps o A.shape e)
              | none =>
                  simp only [Except.ok.injEq] at h
                  subst h
                  exact invariantOK_exact _ _ _

/-- `round_tt` preserves the structural invariants. -/
lemma round_tt_invariantOK (t : Tensor) (r : ℕ)
    (h : t.invariantOK = true) : (round_tt t r).invariantOK = true := by
  obtain ⟨shape, chain, us⟩ := t
  cases chain with
  | tt cs =>
      simp only [Tensor.invariantOK, Tensor.nCores, Tensor.nModes, Tensor.boundaryOK,
        Bool.and_eq_true, decide_eq_true_eq] at h
      obtain ⟨hlen, hb⟩ := h
      simp only [round_tt, roundTTCores, Tensor.invariantOK, Tensor.nCores,
        Tensor.nModes, Tensor.boundaryOK, Bool.and_eq_true, decide_eq_true_eq]
      refine ⟨by rw [roundTTAux_length]; exact hlen, ?_⟩
      cases cs with
      | nil => simp [roundTTAux]
      | cons c cs' =>
          have h1 := roundTTAux_head_rl_first r c cs'
          have h2 := roundTTAux_getLast_rr r true (c :: cs') (by simp)
          simp only [List.head?_cons, Option.map_some', Option.getD_some] at hb ⊢
          rw [h1, h2]
          simpa using hb
  | cp cs =>
      simp only [Tensor.invariantOK, Tensor.nCores, Tensor.nModes, Tensor.boundaryOK,
        Bool.and_eq_true, decide_eq_true_eq] at h
      obtain ⟨hlen, -⟩ := h
      simp only [round_tt, roundTTCores, Tensor.invariantOK, Tensor.nCores,
        Tensor.nModes, Tensor.boundaryOK, Bool.and_eq_true, decide_eq_true_eq]
      refine ⟨by rw [roundTTAux_length, cpToTTCores_length]; exact hlen, ?_⟩
      cases cs with
      | nil => simp [cpToTTCores, roundTTAux]
      | cons c cs' =>
          have hhd := cpToTTCores_head_rl c cs'
          have hne : cpToTTCores (c :: cs') ≠ [] := by
            intro hc
            have := cpToTTCores_length (c :: cs')
            rw [hc] at this
            simp at this
          obtain ⟨d, ds, hds⟩ := List.exists_cons_of_ne_nil hne
          have h2 := roundTTAux_getLast_rr r true (cpToTTCores (c :: cs')) hne
          rw [cpToTTCores_getLast_rr (c :: cs') (by simp)] at h2
          rw [hds] at hhd h2 ⊢
          have h1 := roundTTAux_head_rl_first r d ds
          simp only [List.head?_cons, Option.map_some', Option.some.injEq] at hhd
          rw [h1, h2]
          simp [hhd]

/-- `round_tucker` preserves the structural invariants. -/
lemma round_tucker_invariantOK (o : Oracle) (t : Tensor) (sks : List ℕ)
    (h : t.invariantOK = true) : (round_tucker o t sks).invariantOK = true := by
  obtain ⟨shape, chain, us⟩ := t
  cases chain with
  | tt cs =>
      simp only [Tensor.invariantOK, Tensor.nCores, Tensor.nModes, Tensor.boundaryOK,
        Bool.and_eq_true, decide_eq_true_eq] at h
      obtain ⟨hlen, hb⟩ := h
      simp only [round_tucker, Tensor.invariantOK, Tensor.nCores,
        Tensor.nModes, Tensor.boundaryOK, Bool.and_eq_true, decide_eq_true_eq]
      refine ⟨by rw [retuckAux_length]; exact hlen, ?_⟩
      cases cs with
      | nil => simp [retuckAux]
      | cons c cs' =>
          have h1 := retuckAux_head_rl o c cs' sks
          have h2 := retuckAux_getLast_rr o (c :: cs') sks (by simp)
          simp only [List.head?_cons, Option.map_some', Option.getD_some] at hb ⊢
          rw [h1, h2]
          simpa using hb
  | cp cs =>
      simp only [Tensor.invariantOK, Tensor.nCores, Tensor.nModes, Tensor.boundaryOK,
        Bool.and_eq_true, decide_eq_true_eq] at h
      obtain ⟨hlen, -⟩ := h
      simp only [round_tucker, Tensor.invariantOK, Tensor.nCores,
        Tensor.nModes, Tensor.boundaryOK, Bool.and_eq_true, decide_eq_true_eq]
      refine ⟨by rw [retuckAux_length, cpToTTCores_length]; exact hlen, ?_⟩
      cases cs with
      | nil => simp [cpToTTCores, retuckAux]
      | cons c cs' =>
          have hhd := cpToTTCores_head_rl c cs'
          have hne : cpToTTCores (c :: cs') ≠ [] := by
            intro hc
            have := cpToTTCores_length (c :: cs')
            rw [hc] at this
            simp at this
          obtain ⟨d, ds, hds⟩ := List.exists_cons_of_ne_nil hne
          have h2 := retuckAux_getLast_rr o (cpToTTCores (c :: cs')) sks hne
          rw [cpToTTCores_getLast_rr (c :: cs') (by simp)] at h2
          rw [hds] at hhd h2 ⊢
          have h1 := retuckAux_head_rl o d ds sks
          simp only [List.head?_cons, Option.map_some', Option.some.injEq] at hhd
          rw [h1, h2]
          simp [hhd]

lemma tuckerFactors_any_isSome (o : Oracle) (n : ℕ) (ns sks : List ℕ)
    (hsk : sks ≠ []) :
    (tuckerFactors o (n :: ns) sks).any Option.isSome = true := by
  cases sks with
  | nil => exact absurd rfl hsk
  | cons s sks' => simp [tuckerFactors]

lemma roundTTAux_rr_le (r : ℕ) :
    ∀ (first : Bool) (cs : List TTCore),
      List.Forall₂ (· ≤ ·) ((roundTTAux r first cs).map (·.rr)) (cs.map (·.rr))
  | _, [] => .nil
  | first, [c] => by
      simp only [roundTTAux, List.map_cons, List.map_nil]
      exact .cons le_rfl .nil
  | first, c :: c₂ :: cs => by
      rw [roundTTAux]
      simp only [List.map_cons]
      exact .cons (min_le_left _ _) (by
        have := roundTTAux_rr_le r false (c₂ :: cs)
        simpa using this)

/-- The truncation sweep never increases any entry of the rank profile. -/
lemma round_tt_rank_le (t : Tensor) (r : ℕ) (h : t.isCP = false) :
    List.Forall₂ (· ≤ ·) (round_tt t r).rank t.rank := by
  obtain ⟨shape, chain, us⟩ := t
  cases chain with
  | cp cs => simp [Tensor.isCP] at h
  | tt cs =>
      cases cs with
      | nil =>
          simp only [round_tt, roundTTCores, roundTTAux, Tensor.rank]
          exact .cons le_rfl .nil
      | cons c cs' =>
          have hr := roundTTAux_rr_le r true (c :: cs')
          have hh := roundTTAux_head_rl_first r c cs'
          obtain ⟨d, ds, hds⟩ :=
            List.exists_cons_of_ne_nil
              (@roundTTAux_ne_nil r true (c :: cs') (by simp))
          simp only [round_tt, roundTTCores, Tensor.rank]
          rw [hds] at hr hh ⊢
          simp only [List.head?_cons, Option.map_some', Option.some.injEq] at hh
          exact .cons (le_of_eq hh) hr

/-! ## Error-budget lemmas -/

lemma sumsq_le (l : List ℝ) (b : ℝ) (h : ∀ d ∈ l, |d| ≤ b) :
    (l.map fun d => d ^ 2).sum ≤ l.length * b ^ 2 := by
  induction l with
  | nil => simp
  | cons a l ih =>
      simp only [List.map_cons, List.sum_cons, List.length_cons]
      have ha : a ^ 2 ≤ b ^ 2 := by
        calc a ^ 2 = |a| ^ 2 := (sq_abs a).symm
        _ ≤ b ^ 2 := pow_le_pow_left₀ (abs_nonneg a) (h a (by simp)) 2
      have hl := ih fun d hd => h d (by simp [hd])
      push_cast
      linarith

/-- A list of `m` relative errors, each within the budget `b / sqrt m`, has a
total squared error of at most `b ^ 2`. -/
lemma stage_bound (m : ℕ) (b : ℝ) (l : List ℝ) (hlen : l.length = m)
    (h : ∀ d ∈ l, |d| ≤ b / Real.sqrt m) :
    (l.map fun d => d ^ 2).sum ≤ b ^ 2 := by
  rcases Nat.eq_zero_or_pos m with hm | hm
  · have hnil : l = [] := List.eq_nil_of_length_eq_zero (hm ▸ hlen)
    subst hnil
    simpa using sq_nonneg b
  · have hs := sumsq_le l (b / Real.sqrt m) h
    rw [hlen] at hs
    have hm' : (0 : ℝ) < m := by exact_mod_cast hm
    have heq : (m : ℝ) * (b / Real.sqrt m) ^ 2 = b ^ 2 := by
      rw [div_pow, Real.sq_sqrt hm'.le]
      field_simp
    linarith

/-! ## Claim theorems -/

/-- C2: constructing a Structured Tensor from a full array with only a global
`eps` (no explicit rank arguments) always succeeds and produces the TT-Tucker
hybrid: the Tucker HOSVD stage runs first (producing the per-mode factors and
the reduced mode sizes), then TT-SVD runs on the reduced core (the TT chain is
built over the Tucker-reduced sizes); the result's format is TT-Tucker and is
never a CP result. -/
theorem claim_C2_eps_only_is_tt_tucker (o : Oracle) (A : FullArray) (e : ℚ)
    (hsh : A.shape ≠ []) :
    tnTensor o A none none none (some e) =
      .ok ⟨A.shape,
        .tt (mkTTCores o (tuckerRanksEps o A.shape e)
          (ttBondRanksEps o (tuckerRanksEps o A.shape e) e)),
        tuckerFactors o A.shape (tuckerRanksEps o A.shape e)⟩ ∧
    (orchestrate o A e).format = .TTTucker ∧
    (orchestrate o A e).format ≠ .CP ∧
    (orchestrate o A e).isCP = false := by
  obtain ⟨sh, ent⟩ := A
  cases sh with
  | nil => exact absurd rfl hsh
  | cons n ns =>
      refine ⟨rfl, ?_, ?_, rfl⟩
      · have hany := tuckerFactors_any_isSome o n ns
          (tuckerRanksEps o (n :: ns) e) (by simp [tuckerRanksEps])
        simp [orchestrate, Tensor.format, hany]
      · have hany := tuckerFactors_any_isSome o n ns
          (tuckerRanksEps o (n :: ns) e) (by simp [tuckerRanksEps])
        simp [orchestrate, Tensor.format, hany]

/-- Witness for C2 at a concrete input: the 2 × 3 demo array with `eps = 1/100`. -/
theorem claim_C2_eps_only_is_tt_tucker_witness :
    tnTensor trivialOracle demoA none none none (some (1 / 100)) =
      .ok ⟨demoA.shape,
        .tt (mkTTCores trivialOracle (tuckerRanksEps trivialOracle demoA.shape (1 / 100))
          (ttBondRanksEps trivialOracle
            (tuckerRanksEps trivialOracle demoA.shape (1 / 100)) (1 / 100))),
        tuckerFactors trivialOracle demoA.shape
          (tuckerRanksEps trivialOracle demoA.shape (1 / 100))⟩ ∧
    (orchestrate trivialOracle demoA (1 / 100)).format = .TTTucker ∧
    (orchestrate trivialOracle demoA (1 / 100)).format ≠ .CP ∧
    (orchestrate trivialOracle demoA (1 / 100)).isCP = false :=
  claim_C2_eps_only_is_tt_tucker trivialOracle demoA (1 / 100) (by simp [demoA])

/-- C3: applying the rounding operator to a Structured Tensor in CP format
first converts it to TT format — an explicit pure conversion (`cpToTT`)
returning a new tagged variant — and then rounds the converted TT chain; the
result is a TT-format tensor, so CP is never rounded in place. -/
theorem claim_C3_cp_round_converts (t : Tensor) (r : ℕ) (h : t.format = .CP) :
    round_tt t r = round_tt (cpToTT t) r ∧
    (cpToTT t).isCP = false ∧
    (round_tt t r).format = .TT := by
  obtain ⟨shape, chain, us⟩ := t
  cases chain with
  | tt cs =>
      cases hus : us.any Option.isSome <;> simp [Tensor.format, hus] at h
  | cp cs =>
      cases hus : us.any Option.isSome with
      | true => simp [Tensor.format, hus] at h
      | false =>
          exact ⟨rfl, rfl, by simp [round_tt, Tensor.format, hus]⟩

/-- Witness for C3 at a concrete input: a 1-mode CP tensor of rank 1. -/
theorem claim_C3_cp_round_converts_witness :
    round_tt demoCP 1 = round_tt (cpToTT demoCP) 1 ∧
    (cpToTT demoCP).isCP = false ∧
    (round_tt demoCP 1).format = .TT :=
  claim_C3_cp_round_converts demoCP 1 (by decide)

/-- C4: a request to the CP decomposer carrying an error tolerance alone and no
rank fails fast with the descriptive rank-required error and never returns a
successfully constructed result (no rank is silently selected). -/
theorem claim_C4_cp_eps_only_fails (o : Oracle) (shape : List ℕ) (e : ℚ) :
    cpALS o shape none (some e) = .error cpRankRequiredMsg ∧
    ∀ cs, cpALS o shape none (some e) ≠ .ok cs := by
  refine ⟨rfl, fun cs hc => ?_⟩
  simp [cpALS] at hc

/-- C6: every Structured Tensor produced by any decomposer path of the
constructor satisfies the structural invariants — the number of cores equals
the number of modes, and TT boundary ranks are exactly 1 — and both rounding
operators preserve these invariants. -/
theorem claim_C6_invariants :
    (∀ (o : Oracle) (A : FullArray) (rtt rtu rcp : Option ℕ) (eps : Option ℚ)
        (t : Tensor), tnTensor o A rtt rtu rcp eps = .ok t →
        t.invariantOK = true) ∧
    (∀ (t : Tensor) (r : ℕ), t.invariantOK = true →
        (round_tt t r).invariantOK = true) ∧
    (∀ (o : Oracle) (t : Tensor) (sks : List ℕ), t.invariantOK = true →
        (round_tucker o t sks).invariantOK = true) :=
  ⟨tnTensor_invariantOK, round_tt_invariantOK, round_tucker_invariantOK⟩

/-- Witness for C6 at concrete inputs: the rank-2 TT build of the demo array,
its `round_tt`, and its `round_tucker`. -/
theorem claim_C6_invariants_witness :
    demoTT.invariantOK = true ∧
    (round_tt demoTT 1).invariantOK = true ∧
    (round_tucker trivialOracle demoTT [1, 1]).invariantOK = true :=
  ⟨claim_C6_invariants.1 trivialOracle demoA (some 2) none none none demoTT rfl,
   claim_C6_invariants.2.1 demoTT 1 (by decide),
   claim_C6_invariants.2.2 trivialOracle demoTT [1, 1] (by decide)⟩

/-- C7: in the state-passing embedding of the API, the rounding operators
update the receiving Structured Tensor itself (the returned state keeps the
receiver's shape while the rank profile shrinks pointwise; the operation's
result value is `Unit`, so no separate new object is handed back), while every
read-only query (shape, rank, coefficient count, reconstruction, relative
error, RMSE, R-squared) returns the receiver's state unchanged. -/
theorem claim_C7_frame :
    (∀ (t : Tensor) (r : ℕ),
        (roundTTOp t r).1.shape = t.shape ∧ (roundTTOp t r).2 = ()) ∧
    (∀ (t : Tensor) (r : ℕ), t.isCP = false →
        List.Forall₂ (· ≤ ·) (roundTTOp t r).1.rank t.rank) ∧
    (∀ (o : Oracle) (t : Tensor) (sks : List ℕ),
        (roundTuckerOp o t sks).1.shape = t.shape ∧ (roundTuckerOp o t sks).2 = ()) ∧
    (∀ t : Tensor, (shapeOp t).1 = t) ∧
    (∀ t : Tensor, (rankOp t).1 = t) ∧
    (∀ t : Tensor, (numcoefOp t).1 = t) ∧
    (∀ (t : Tensor) (idx : List ℕ), (evalOp t idx).1 = t) ∧
    (∀ (A : FullArray) (t : Tensor), (relativeErrorOp A t).1 = t) ∧
    (∀ (A : FullArray) (t : Tensor), (rmseOp A t).1 = t) ∧
    (∀ (A : FullArray) (t : Tensor), (rSquaredOp A t).1 = t) := by
  refine ⟨?_, ?_, ?_, fun _ => rfl, fun _ => rfl, fun _ => rfl,
    fun _ _ => rfl, fun _ _ => rfl, fun _ _ => rfl, fun _ _ => rfl⟩
  · intro t r
    obtain ⟨shape, chain, us⟩ := t
    cases chain <;> exact ⟨rfl, rfl⟩
  · intro t r h
    exact round_tt_rank_le t r h
  · intro o t sks
    exact ⟨rfl, rfl⟩

/-- Witness for C7 at a concrete input: rounding the rank-2 demo TT tensor to
rank 1 shrinks its rank profile pointwise. -/
theorem claim_C7_frame_witness :
    List.Forall₂ (· ≤ ·) (roundTTOp demoTT 1).1.rank demoTT.rank :=
  claim_C7_frame.2.1 demoTT 1 (by decide)

/-- C8: constructing with both `ranks_cp` and `ranks_tucker` succeeds and
yields the CP-Tucker hybrid: 2-index CP cores all sharing the single rank `R`
over the Tucker-reduced mode sizes, together with one Tucker factor per mode;
the core count matches the mode count. -/
theorem claim_C8_cp_tucker_build (o : Oracle) (A : FullArray) (R s : ℕ)
    (hsh : A.shape ≠ []) :
    tnTensor o A none (some s) (some R) none = .ok (cpTuckerBuild o A R s) ∧
    (cpTuckerBuild o A R s).format = .CPTucker ∧
    (∀ c ∈ (cpTuckerBuild o A R s).cpCores, c.R = R) ∧
    (∀ u ∈ (cpTuckerBuild o A R s).Us, u.isSome = true) ∧
    (cpTuckerBuild o A R s).nCores = (cpTuckerBuild o A R s).nModes := by
  obtain ⟨sh, ent⟩ := A
  cases sh with
  | nil => exact absurd rfl hsh
  | cons n ns =>
      refine ⟨rfl, ?_, ?_, ?_, ?_⟩
      · have hany := tuckerFactors_any_isSome o n ns
          (tuckerRanksFixed (n :: ns) s) (by simp [tuckerRanksFixed])
        simp [cpTuckerBuild, Tensor.format, hany]
      · intro c hc
        simp only [cpTuckerBuild, Tensor.cpCores, List.mem_map] at hc
        obtain ⟨m, -, rfl⟩ := hc
        rfl
      · intro u hu
        simp only [cpTuckerBuild, tuckerFactors, List.mem_map] at hu
        obtain ⟨p, -, rfl⟩ := hu
        rfl
      · simp [cpTuckerBuild, Tensor.nCores, Tensor.nModes, length_tuckerRanksFixed]

/-- Witness for C8 at a concrete input: the demo array with `ranks_cp = 2`,
`ranks_tucker = 2`. -/
theorem claim_C8_cp_tucker_build_witness :
    tnTensor trivialOracle demoA none (some 2) (some 2) none =
      .ok (cpTuckerBuild trivialOracle demoA 2 2) ∧
    (cpTuckerBuild trivialOracle demoA 2 2).format = .CPTucker ∧
    (∀ c ∈ (cpTuckerBuild trivialOracle demoA 2 2).cpCores, c.R = 2) ∧
    (∀ u ∈ (cpTuckerBuild trivialOracle demoA 2 2).Us, u.isSome = true) ∧
    (cpTuckerBuild trivialOracle demoA 2 2).nCores =
      (cpTuckerBuild trivialOracle demoA 2 2).nModes :=
  claim_C8_cp_tucker_build trivialOracle demoA 2 2 (by simp [demoA])

/-- C5: rounding a TT tensor to the rank it was built with is the identity —
`round_tt` applied with the same target rank `r` to the result of the
fixed-rank TT construction leaves every core (and hence the rank profile and
every reconstructed entry) unchanged. -/
theorem claim_C5_round_tt_same_rank_identity (o : Oracle) (A : FullArray)
    (r : ℕ) (t : Tensor) (h : tnTensor o A (some r) none none none = .ok t) :
    round_tt t r = t ∧ (round_tt t r).rank = t.rank ∧
    ∀ idx, (round_tt t r).eval idx = t.eval idx := by
  simp only [tnTensor, Except.ok.injEq] at h
  subst h
  have hid : roundTTCores (mkTTCores o A.shape (ttBondRanksFixed A.shape r)) r =
      mkTTCores o A.shape (ttBondRanksFixed A.shape r) := by
    unfold roundTTCores mkTTCores
    exact roundTTAux_mkTTCoresAux o r A.shape _ 1 true
      (length_ttBondRanksFixed A.shape r) (ttBondRanksFixed_le A.shape r)
      (fun hf => absurd hf (by simp))
  have h1 : round_tt ⟨A.shape,
      .tt (mkTTCores o A.shape (ttBondRanksFixed A.shape r)),
      A.shape.map fun _ => none⟩ r =
      ⟨A.shape, .tt (mkTTCores o A.shape (ttBondRanksFixed A.shape r)),
        A.shape.map fun _ => none⟩ := by
    simp [round_tt, hid]
  exact ⟨h1, by rw [h1], fun idx => by rw [h1]⟩

/-- Witness for C5 at a concrete input: the rank-2 TT build of the demo array
is untouched by `round_tt` at rank 2, also when evaluated at the index (1,2). -/
theorem claim_C5_round_tt_same_rank_identity_witness :
    round_tt demoTT 2 = demoTT ∧
    (round_tt demoTT 2).eval [1, 2] = demoTT.eval [1, 2] :=
  ⟨(claim_C5_round_tt_same_rank_identity trivialOracle demoA 2 demoTT rfl).1,
   (claim_C5_round_tt_same_rank_identity trivialOracle demoA 2 demoTT rfl).2.2
     [1, 2]⟩

/-- C9: constructing from a full array with no rank argument and no `eps` does
not fail — it returns the exact representation, which reconstructs every valid
entry of the input losslessly, and both rounding operators apply to the result
(`round_tt` keeps it a TT tensor, `round_tucker` makes it TT-Tucker). -/
theorem claim_C9_no_args_exact (o : Oracle) (A : FullArray) (r : ℕ) (e : ℚ)
    (hsh : A.shape ≠ []) :
    tnTensor o A none none none none = .ok (exactBuild A) ∧
    (∀ idx, validIdx idx A.shape = true →
      (exactBuild A).eval idx = A.entry idx) ∧
    (round_tt (exactBuild A) r).format = .TT ∧
    (round_tucker_eps o (exactBuild A) e).format = .TTTucker := by
  refine ⟨rfl, ?_, ?_, ?_⟩
  · intro idx hvi
    show (ttEvalAux [1] (exactChain 1 (fun _ idx => A.entry idx) A.shape) idx).sum
      = A.entry idx
    rw [← unitVec_one,
      exactChain_eval A.shape 1 0 (fun _ idx => A.entry idx) idx one_pos hvi hsh]
    simp
  · simp [exactBuild, round_tt, Tensor.format, any_isSome_map_none]
  · obtain ⟨sh, ent⟩ := A
    cases sh with
    | nil => exact absurd rfl hsh
    | cons n ns =>
        have hany := tuckerFactors_any_isSome o n ns
          (tuckerRanksEps o (n :: ns) e) (by simp [tuckerRanksEps])
        simp [exactBuild, round_tucker_eps, round_tucker, Tensor.format, hany]

/-- Witness for C9 at a concrete input: the no-argument build of the 2 × 3
demo array reconstructs the entry at index (1, 2) exactly. -/
theorem claim_C9_no_args_exact_witness :
    tnTensor trivialOracle demoA none none none none = .ok (exactBuild demoA) ∧
    (exactBuild demoA).eval [1, 2] = demoA.entry [1, 2] ∧
    (round_tt (exactBuild demoA) 1).format = .TT ∧
    (round_tucker_eps trivialOracle (exactBuild demoA) 1).format = .TTTucker :=
  ⟨(claim_C9_no_args_exact trivialOracle demoA 1 1 (by simp [demoA])).1,
   (claim_C9_no_args_exact trivialOracle demoA 1 1 (by simp [demoA])).2.1
     [1, 2] (by decide),
   (claim_C9_no_args_exact trivialOracle demoA 1 1 (by simp [demoA])).2.2.1,
   (claim_C9_no_args_exact trivialOracle demoA 1 1 (by simp [demoA])).2.2.2⟩

/-- C1: the error-bounded path (construction with `eps` only) meets its error
target — whenever the adapter contract of the orchestrator run holds (each of
the `N` Tucker-mode errors and each of the `N-1` TT-step errors is within its
per-stage budget), the composed relative error of the produced tensor is at
most `eps`. -/
theorem claim_C1_eps_bounded_error (N : ℕ) (eps : ℝ) (tErrs sErrs : List ℝ)
    (heps : 0 < eps) (hc : orchestratorContract N eps tErrs sErrs) :
    orchestratorRelError tErrs sErrs ≤ eps := by
  obtain ⟨hlt, hls, hbt, hbs⟩ := hc
  have h1 : (tErrs.map fun d => d ^ 2).sum ≤ (eps / Real.sqrt 2) ^ 2 :=
    stage_bound N (eps / Real.sqrt 2) tErrs hlt
      (by simpa [tuckerModeBudget, orchestratorStageBudget] using hbt)
  have h2 : (sErrs.map fun d => d ^ 2).sum ≤ (eps / Real.sqrt 2) ^ 2 :=
    stage_bound (N - 1) (eps / Real.sqrt 2) sErrs hls
      (by simpa [ttStepBudget, orchestratorStageBudget] using hbs)
  have hsq : (eps / Real.sqrt 2) ^ 2 = eps ^ 2 / 2 := by
    rw [div_pow, Real.sq_sqrt (by norm_num : (0 : ℝ) ≤ 2)]
  have hsum : (tErrs.map fun d => d ^ 2).sum + (sErrs.map fun d => d ^ 2).sum ≤
      eps ^ 2 := by
    rw [hsq] at h1 h2
    linarith
  unfold orchestratorRelError composedError
  rw [List.map_append, List.sum_append]
  refine le_trans (Real.sqrt_le_sqrt hsum) ?_
  rw [Real.sqrt_sq heps.le]

/-- Witness for C1 at a concrete input: a 1-mode run at `eps = 1` with one
Tucker-stage error `0` and no TT steps. -/
theorem claim_C1_eps_bounded_error_witness :
    orchestratorRelError [0] [] ≤ 1 :=
  claim_C1_eps_bounded_error 1 1 [0] [] one_pos
    ⟨rfl, rfl,
     fun d hd => by
       rw [List.mem_singleton] at hd
       subst hd
       rw [abs_zero]
       exact div_nonneg (div_nonneg zero_le_one (Real.sqrt_nonneg 2))
         (Real.sqrt_nonneg _),
     fun d hd => absurd hd (List.not_mem_nil d)⟩

/-- C10: `round_tucker` with an error tolerance applied to a plain TT tensor
(no Tucker factors, not CP) does not fail — it attaches one Tucker factor per
mode, so the result is a TT-Tucker tensor with the core count preserved — and
whenever the per-mode adapter errors satisfy the `round_tucker` contract, their
composed reconstruction error is at most the requested `eps`. -/
theorem claim_C10_round_tucker_attaches_factors (o : Oracle) (t : Tensor)
    (e : ℚ) (ht : t.isCP = false) (_htf : t.hasTuckerFactors = false)
    (hsh : t.shape ≠ []) :
    (round_tucker_eps o t e).format = .TTTucker ∧
    (∀ u ∈ (round_tucker_eps o t e).Us, u.isSome = true) ∧
    (round_tucker_eps o t e).nCores = t.nCores ∧
    ∀ errs : List ℝ, 0 < (e : ℝ) →
      roundTuckerContract t.nModes (e : ℝ) errs →
      composedError errs ≤ (e : ℝ) := by
  obtain ⟨shape, chain, us⟩ := t
  cases chain with
  | cp cs => simp [Tensor.isCP] at ht
  | tt cs =>
      cases shape with
      | nil => exact absurd rfl hsh
      | cons n ns =>
          refine ⟨?_, ?_, ?_, ?_⟩
          · have hany := tuckerFactors_any_isSome o n ns
              (tuckerRanksEps o (n :: ns) e) (by simp [tuckerRanksEps])
            simp [round_tucker_eps, round_tucker, Tensor.format, hany]
          · intro u hu
            simp only [round_tucker_eps, round_tucker, tuckerFactors,
              List.mem_map] at hu
            obtain ⟨p, -, rfl⟩ := hu
            rfl
          · simp [round_tucker_eps, round_tucker, Tensor.nCores, retuckAux_length]
          · intro errs hpos hc
            obtain ⟨hlen, hb⟩ := hc
            have hs := stage_bound (Tensor.nModes ⟨n :: ns, .tt cs, us⟩)
              ((e : ℚ) : ℝ) errs hlen (by simpa [tuckerModeBudget] using hb)
            refine le_trans (Real.sqrt_le_sqrt hs) ?_
            rw [Real.sqrt_sq hpos.le]

/-- Witness for C10 at a concrete input: the rank-2 demo TT tensor at
`eps = 1`, with both per-mode adapter errors equal to `0`. -/
theorem claim_C10_round_tucker_attaches_factors_witness :
    (round_tucker_eps trivialOracle demoTT 1).format = .TTTucker ∧
    composedError [0, 0] ≤ ((1 : ℚ) : ℝ) :=
  ⟨(claim_C10_round_tucker_attaches_factors trivialOracle demoTT 1
      (by decide) (by decide) (by simp [demoTT])).1,
   (claim_C10_round_tucker_attaches_factors trivialOracle demoTT 1
      (by decide) (by decide) (by simp [demoTT])).2.2.2 [0, 0]
      (Rat.cast_pos.mpr one_pos)
      ⟨rfl,
       fun d hd => by
         have hd0 : d = 0 := by simpa using hd
         subst hd0
         rw [abs_zero]
         exact div_nonneg (Rat.cast_nonneg.mpr zero_le_one)
           (Real.sqrt_nonneg _)⟩⟩

end Tntorch
